import Mathlib

/-
Verification of the bounded circular FIFO queue and the truncation
(admission-control) policy implemented in mm1_example.c / fifo_example.c.

The C state is an array of nullable pointers together with two indices.
We embed it as a structure holding a list of optional elements (slot i
holds none exactly when fifo[i] == NULL) plus the head and tail indices.
The three core functions, enqueue, dequeue and check_and_truncate, are
translated line by line below.
-/

namespace Queues

/-- The queue state: the slot array (none = NULL), the head index and the
tail index.  The array size of the C code is the length of the slot list. -/
structure Fifo (α : Type) where
  slots : List (Option α)
  head : Nat
  tail : Nat
deriving DecidableEq

/-- A freshly constructed queue: an array of C NULL slots, head = tail = 0. -/
def emptyFifo (α : Type) (C : Nat) : Fifo α :=
  ⟨List.replicate C none, 0, 0⟩

/-- Embedding of the C function enqueue: write the arrival into slot tail,
advance tail modulo size, then report 0 (ok) when the slot at the new tail
is NULL and 1 (overflow) otherwise. -/
def enqueue (q : Fifo α) (arrival : α) : Fifo α × Nat :=
  let slots := q.slots.set q.tail (some arrival)
  let tail := (q.tail + 1) % q.slots.length
  (⟨slots, q.head, tail⟩, if (slots.getD tail none).isSome then 1 else 0)

/-- Embedding of the C function dequeue: read slot head; if NULL return no
element and change nothing; otherwise clear the slot, advance head modulo
size unless head == tail, and return the element. -/
def dequeue (q : Fifo α) : Fifo α × Option α :=
  match q.slots.getD q.head none with
  | none => (q, none)
  | some d =>
      (⟨q.slots.set q.head none,
        if q.head ≠ q.tail then (q.head + 1) % q.slots.length else q.head,
        q.tail⟩, some d)

/-- The occupancy count computed by the first loop of check_and_truncate
(and by show_queue): the number of non-NULL slots. -/
def queueLength (q : Fifo α) : Nat :=
  q.slots.countP (fun s => s.isSome)

/-- One iteration of the body of the while loop of check_and_truncate:
clear the head slot and advance head modulo size (unconditionally). -/
def evictHead (q : Fifo α) : Fifo α :=
  ⟨q.slots.set q.head none, (q.head + 1) % q.slots.length, q.tail⟩

/-- Embedding of the while loop of check_and_truncate: while the head slot
is occupied and the running length counter exceeds the limit, clear the
head slot, advance head, and decrement the counter.  The C loop terminates
because every iteration clears an occupied slot; here that argument is the
termination measure. -/
def truncLoop (q : Fifo α) (qlen limit : Int) : Fifo α :=
  if h : (q.slots.getD q.head none).isSome ∧ limit < qlen then
    truncLoop (evictHead q) (qlen - 1) limit
  else q
termination_by queueLength q
decreasing_by
  have key : ∀ (L : List (Option α)) (i : Nat), (L.getD i none).isSome = true →
      (L.set i none).countP (fun s => s.isSome) < L.countP (fun s => s.isSome) := by
    intro L
    induction L with
    | nil => intro i hi; simp [List.getD] at hi
    | cons x t ih =>
        intro i hi
        cases i with
        | zero =>
            simp only [List.getD_cons_zero] at hi
            simp [List.set, List.countP_cons, hi]
        | succ j =>
            simp only [List.getD_cons_succ] at hi
            have := ih j hi
            simp only [List.set, List.countP_cons]
            omega
  exact key q.slots q.head h.1

/-- Embedding of the C function check_and_truncate: count the occupied
slots, then run the eviction loop with that count as the counter. -/
def check_and_truncate (q : Fifo α) (limit : Int) : Fifo α :=
  truncLoop q (queueLength q) limit

/-- Run a list of enqueue calls in order, returning the final state and
the list of statuses (0 = ok, 1 = overflow) in call order. -/
def enqList (q : Fifo α) : List α → Fifo α × List Nat
  | [] => (q, [])
  | e :: rest =>
      let r := enqueue q e
      let rr := enqList r.1 rest
      (rr.1, r.2 :: rr.2)

/-- Run n dequeue calls in order, returning the final state and the list
of returned results in call order. -/
def deqList (q : Fifo α) : Nat → Fifo α × List (Option α)
  | 0 => (q, [])
  | n + 1 =>
      let r := dequeue q
      let rr := deqList r.1 n
      (rr.1, r.2 :: rr.2)

/-- A caller-visible operation on the queue, as invoked by the harness. -/
inductive Op (α : Type) where
  | enq : α → Op α
  | deq : Op α
  | trunc : Int → Op α

/-- One harness step: an enqueue returns its status, the other operations
report status 0. -/
def step (q : Fifo α) : Op α → Fifo α × Nat
  | .enq a => enqueue q a
  | .deq => ((dequeue q).1, 0)
  | .trunc limit => (check_and_truncate q limit, 0)

/-- Run a list of operations in order, returning the final state and the
statuses of all steps in order. -/
def runOps (q : Fifo α) : List (Op α) → Fifo α × List Nat
  | [] => (q, [])
  | op :: rest =>
      let r := step q op
      let rr := runOps r.1 rest
      (rr.1, r.2 :: rr.2)

/-- The representation invariant of a well-formed queue state: the queue
of capacity C holds the elements of the list l (oldest first), laid out
cyclically starting at the head index, with the tail index just past the
newest element and all other slots NULL. -/
structure Wf (C h : Nat) (l : List α) (q : Fifo α) : Prop where
  two_le : 2 ≤ C
  h_lt : h < C
  len_lt : l.length < C
  slots_len : q.slots.length = C
  head_eq : q.head = h
  tail_eq : q.tail = (h + l.length) % C
  occ_eq : queueLength q = l.length
  slot_eq : ∀ j, j < C → q.slots.getD ((h + j) % C) none = l.get? j

/-- Adding distinct offsets below the modulus to a common base yields
distinct residues. -/
theorem mod_inj {C h j n : Nat} (hj : j < C) (hn : n < C)
    (he : (h + j) % C = (h + n) % C) : j = n := by
  have h1 : Nat.ModEq C (h + j) (h + n) := he
  have h2 : Nat.ModEq C j n := Nat.ModEq.add_left_cancel' h h1
  have h3 : j % C = n % C := h2
  rwa [Nat.mod_eq_of_lt hj, Nat.mod_eq_of_lt hn] at h3

/-- Adding an offset below the modulus fixes the base exactly when the
offset is zero. -/
theorem mod_shift_eq_self {C h n : Nat} (hh : h < C) (hn : n < C) :
    (h + n) % C = h ↔ n = 0 := by
  constructor
  · intro he
    have h0 : (h + n) % C = (h + 0) % C := by
      simpa [Nat.mod_eq_of_lt hh] using he
    exact mod_inj hn (by omega) h0
  · intro he
    subst he
    simp [Nat.mod_eq_of_lt hh]

/-- Reading back the slot just written. -/
theorem getD_set_self (l : List (Option α)) {i : Nat} (hi : i < l.length)
    (v : Option α) : (l.set i v).getD i none = v := by
  rw [List.getD_eq_getD_get?, List.get?_set_eq_of_lt _ hi]
  rfl

/-- Writing one slot leaves every other slot unchanged. -/
theorem getD_set_ne (l : List (Option α)) {i j : Nat} (hne : i ≠ j)
    (v : Option α) : (l.set i v).getD j none = l.getD j none := by
  rw [List.getD_eq_getD_get?, List.getD_eq_getD_get?, List.get?_set_ne _ _ hne]

/-- Every slot of a freshly constructed array is NULL. -/
theorem getD_replicate_none (C i : Nat) :
    (List.replicate C (none : Option α)).getD i none = none := by
  induction C generalizing i with
  | zero => rfl
  | succ n ih =>
      cases i with
      | zero => simp [List.replicate_succ]
      | succ j => simp [List.replicate_succ, List.getD_cons_succ, ih]

/-- A freshly constructed array has occupancy zero. -/
theorem countP_replicate_none (C : Nat) :
    (List.replicate C (none : Option α)).countP (fun s => s.isSome) = 0 := by
  induction C with
  | zero => rfl
  | succ n ih => simp [List.replicate_succ, List.countP_cons, ih]

/-- Writing an element into a NULL slot raises the occupancy count by one. -/
theorem countP_set_some (l : List (Option α)) (i : Nat) (a : α)
    (hn : l.getD i none = none) (hi : i < l.length) :
    (l.set i (some a)).countP (fun s => s.isSome) =
      l.countP (fun s => s.isSome) + 1 := by
  induction l generalizing i with
  | nil => simp at hi
  | cons x t ih =>
      cases i with
      | zero =>
          simp only [List.getD_cons_zero] at hn
          simp [List.set, List.countP_cons, hn]
      | succ j =>
          simp only [List.getD_cons_succ] at hn
          simp only [List.length_cons] at hi
          simp only [List.set, List.countP_cons, ih j hn (by omega)]
          omega

/-- Clearing an occupied slot lowers the occupancy count by one. -/
theorem countP_set_none (l : List (Option α)) (i : Nat) (b : α)
    (hs : l.getD i none = some b) :
    (l.set i none).countP (fun s => s.isSome) + 1 =
      l.countP (fun s => s.isSome) := by
  induction l generalizing i with
  | nil => simp [List.getD] at hs
  | cons x t ih =>
      cases i with
      | zero =>
          simp only [List.getD_cons_zero] at hs
          simp [List.set, List.countP_cons, hs]
      | succ j =>
          simp only [List.getD_cons_succ] at hs
          simp only [List.set, List.countP_cons]
          have := ih j hs
          omega

/-- The freshly constructed queue is well formed and holds no elements. -/
theorem wf_empty (α : Type) {C : Nat} (hC : 2 ≤ C) :
    Wf C 0 ([] : List α) (emptyFifo α C) := by
  refine ⟨hC, by omega, by simp; omega, by simp [emptyFifo], rfl, ?_, ?_, ?_⟩
  · simp [emptyFifo]
  · simp [emptyFifo, queueLength, countP_replicate_none]
  · intro j hj
    simp [emptyFifo, getD_replicate_none]

/-- A successful enqueue: when fewer than capacity minus one elements are
held, enqueue reports 0 and appends the arrival at the newest end. -/
theorem wf_enqueue_ok {C h : Nat} {l : List α} {q : Fifo α}
    (w : Wf C h l q) (hlen : l.length + 1 < C) (a : α) :
    (enqueue q a).2 = 0 ∧ Wf C h (l ++ [a]) (enqueue q a).1 := by
  obtain ⟨hC, hh, hl, hslen, hhead, htail, hocc, hslot⟩ := w
  have hCpos : 0 < C := by omega
  have htl : q.tail < C := by rw [htail]; exact Nat.mod_lt _ hCpos
  have htl2 : q.tail < q.slots.length := by omega
  have ht2 : (q.tail + 1) % C = (h + (l.length + 1)) % C := by
    rw [htail, Nat.mod_add_mod]
    congr 1
  have hne : q.tail ≠ (q.tail + 1) % C := by
    rw [ht2, htail]
    intro he
    exact absurd (mod_inj hl hlen he) (by omega)
  have hgetnew : ((q.slots.set q.tail (some a)).getD ((q.tail + 1) % C) none) = none := by
    rw [getD_set_ne _ hne, ht2, hslot (l.length + 1) hlen]
    exact List.get?_len_le (by omega)
  constructor
  · simp only [enqueue, hslen]
    rw [hgetnew]
    rfl
  · refine ⟨hC, hh, by simp; omega, by simp [enqueue]; omega, hhead, ?_, ?_, ?_⟩
    · simp only [enqueue, hslen]
      rw [ht2]
      simp
    · simp only [enqueue, queueLength] at hocc ⊢
      rw [countP_set_some _ _ _ ?_ htl2]
      · simp [hocc]
      · rw [htail, hslot l.length hl]
        exact List.get?_len_le (by omega)
    · intro j hj
      simp only [enqueue]
      by_cases hjn : j = l.length
      · subst hjn
        rw [← htail, getD_set_self _ htl2, List.get?_concat_length]
      · have hne2 : q.tail ≠ (h + j) % C := by
          intro he
          rw [htail] at he
          exact hjn (mod_inj hl hj he).symm
        rw [getD_set_ne _ hne2, hslot j hj]
        rcases Nat.lt_or_ge j l.length with hlt | hge
        · rw [List.get?_append hlt]
        · have hgt : l.length < j := by omega
          rw [List.get?_len_le (by omega), List.get?_len_le (by simp; omega)]

/-- The overflowing enqueue: with capacity minus one elements already
held, enqueue reports 1 (the arrival was nonetheless written and the tail
advanced onto the head). -/
theorem wf_enqueue_full {C h : Nat} {l : List α} {q : Fifo α}
    (w : Wf C h l q) (hlen : l.length + 1 = C) (a : α) :
    (enqueue q a).2 = 1 ∧
      (enqueue q a).1 = ⟨q.slots.set q.tail (some a), q.head, q.head⟩ := by
  obtain ⟨hC, hh, hl, hslen, hhead, htail, hocc, hslot⟩ := w
  have hCpos : 0 < C := by omega
  have htl : q.tail < C := by rw [htail]; exact Nat.mod_lt _ hCpos
  have ht2 : (q.tail + 1) % C = h := by
    rw [htail, Nat.mod_add_mod]
    have : h + l.length + 1 = h + C := by omega
    rw [this, Nat.add_mod_right, Nat.mod_eq_of_lt hh]
  have hne : q.tail ≠ (q.tail + 1) % C := by
    rw [ht2, htail]
    intro he
    have := (mod_shift_eq_self hh hl).mp he
    omega
  obtain ⟨x, l2, rfl⟩ : ∃ x l2, l = x :: l2 := by
    cases l with
    | nil => simp at hlen; omega
    | cons x l2 => exact ⟨x, l2, rfl⟩
  have hgetnew : ((q.slots.set q.tail (some a)).getD ((q.tail + 1) % C) none) = some x := by
    rw [getD_set_ne _ hne, ht2]
    have h0 : q.slots.getD ((h + 0) % C) none = some x := by
      rw [hslot 0 hCpos]
      rfl
    rwa [Nat.add_zero, Nat.mod_eq_of_lt hh] at h0
  constructor
  · simp only [enqueue, hslen]
    rw [hgetnew]
    rfl
  · simp only [enqueue, hslen]
    rw [ht2, hhead]

/-- One eviction step of check_and_truncate on a nonempty well-formed
queue: the oldest element is removed and the head advances. -/
theorem wf_evict {C h : Nat} {a : α} {l : List α} {q : Fifo α}
    (w : Wf C h (a :: l) q) : Wf C ((h + 1) % C) l (evictHead q) := by
  obtain ⟨hC, hh, hl, hslen, hhead, htail, hocc, hslot⟩ := w
  simp only [List.length_cons] at hl htail hocc
  have hCpos : 0 < C := by omega
  have hh0 : (h + 0) % C = h := by simp [Nat.mod_eq_of_lt hh]
  have hgethead : q.slots.getD q.head none = some a := by
    rw [hhead, ← hh0, hslot 0 hCpos]
    rfl
  have hhl : q.head < q.slots.length := by rw [hhead, hslen]; omega
  refine ⟨hC, Nat.mod_lt _ hCpos, by omega, by simp [evictHead]; omega, ?_, ?_, ?_, ?_⟩
  · simp [evictHead, hhead, hslen]
  · simp only [evictHead]
    rw [htail, Nat.mod_add_mod]
    congr 1
    omega
  · simp only [evictHead, queueLength] at hocc ⊢
    have := countP_set_none q.slots q.head a hgethead
    omega
  · intro j hj
    simp only [evictHead]
    have hidx : ((h + 1) % C + j) % C = (h + (j + 1)) % C := by
      rw [Nat.mod_add_mod]
      congr 1
      omega
    rw [hidx]
    by_cases hj1 : j + 1 = C
    · have hC0 : (h + (j + 1)) % C = h := by
        rw [hj1, Nat.add_mod_right, Nat.mod_eq_of_lt hh]
      rw [hC0, ← hhead, getD_set_self _ hhl]
      rw [List.get?_len_le (by omega)]
    · have hne : q.head ≠ (h + (j + 1)) % C := by
        rw [hhead]
        intro he
        have := (mod_shift_eq_self hh (by omega)).mp he.symm
        omega
      rw [getD_set_ne _ hne, hslot (j + 1) (by omega)]
      rfl

/-- On a nonempty well-formed queue, dequeue returns the oldest element
and performs exactly the eviction step. -/
theorem wf_dequeue_cons {C h : Nat} {a : α} {l : List α} {q : Fifo α}
    (w : Wf C h (a :: l) q) :
    dequeue q = (evictHead q, some a) ∧ Wf C ((h + 1) % C) l (dequeue q).1 := by
  obtain ⟨hC, hh, hl, hslen, hhead, htail, hocc, hslot⟩ := w
  simp only [List.length_cons] at hl htail
  have hCpos : 0 < C := by omega
  have hh0 : (h + 0) % C = h := by simp [Nat.mod_eq_of_lt hh]
  have hgethead : q.slots.getD q.head none = some a := by
    rw [hhead, ← hh0, hslot 0 hCpos]
    rfl
  have hne : q.head ≠ q.tail := by
    rw [hhead, htail]
    intro he
    have := (mod_shift_eq_self hh hl).mp he.symm
    omega
  have hd : dequeue q = (evictHead q, some a) := by
    simp only [dequeue, hgethead, evictHead]
    rw [if_pos hne]
  refine ⟨hd, ?_⟩
  rw [hd]
  exact wf_evict ⟨hC, hh, by simpa using hl, hslen, hhead, by simpa using htail, hocc, hslot⟩

/-- On an empty well-formed queue, dequeue returns no element and changes
nothing. -/
theorem wf_dequeue_nil {C h : Nat} {q : Fifo α}
    (w : Wf C h ([] : List α) q) : dequeue q = (q, none) := by
  obtain ⟨hC, hh, hl, hslen, hhead, htail, hocc, hslot⟩ := w
  have hCpos : 0 < C := by omega
  have hh0 : (h + 0) % C = h := by simp [Nat.mod_eq_of_lt hh]
  have hgethead : q.slots.getD q.head none = none := by
    rw [hhead, ← hh0, hslot 0 hCpos]
    rfl
  simp only [dequeue, hgethead]

/-- The eviction loop on a well-formed queue: it drops exactly the
elements of the abstract list beyond the limit, oldest first, and leaves
a well-formed queue behind. -/
theorem wf_truncLoop {C : Nat} :
    ∀ (l : List α) (h : Nat) (q : Fifo α) (qlen limit : Int),
    Wf C h l q → qlen = (l.length : Int) →
    Wf C ((h + (l.length - limit.toNat)) % C) (l.drop (l.length - limit.toNat))
      (truncLoop q qlen limit) := by
  intro l
  induction l with
  | nil =>
      intro h q qlen limit w hq
      obtain ⟨hC, hh, hl, hslen, hhead, htail, hocc, hslot⟩ := w
      have hh0 : (h + 0) % C = h := by simp [Nat.mod_eq_of_lt hh]
      have hgethead : q.slots.getD q.head none = none := by
        rw [hhead, ← hh0, hslot 0 (by omega)]
        rfl
      rw [truncLoop]
      rw [dif_neg (by rw [hgethead]; simp)]
      simp only [List.length_nil, Nat.zero_sub, List.drop_nil, hh0]
      exact ⟨hC, hh, hl, hslen, hhead, htail, hocc, hslot⟩
  | cons a l ih =>
      intro h q qlen limit w hq
      have hh0 : (h + 0) % C = h := by
        simp [Nat.mod_eq_of_lt w.h_lt]
      have hgethead : q.slots.getD q.head none = some a := by
        rw [w.head_eq, ← hh0, w.slot_eq 0 (by have := w.h_lt; omega)]
        rfl
      rw [truncLoop]
      by_cases hcond : limit < qlen
      · rw [dif_pos ⟨by rw [hgethead]; rfl, hcond⟩]
        have hklt : limit.toNat ≤ l.length := by
          simp only [List.length_cons] at hq
          omega
        have hk : (a :: l).length - limit.toNat = (l.length - limit.toNat) + 1 := by
          simp only [List.length_cons]
          omega
        have hrec := ih ((h + 1) % C) (evictHead q) (qlen - 1) limit (wf_evict w)
          (by simp only [List.length_cons] at hq; omega)
        rw [hk]
        have hidx : ((h + 1) % C + (l.length - limit.toNat)) % C =
            (h + (l.length - limit.toNat + 1)) % C := by
          rw [Nat.mod_add_mod]
          congr 1
          omega
        rw [← hidx]
        simpa using hrec
      · rw [dif_neg (by simp [hcond])]
        have hk : (a :: l).length - limit.toNat = 0 := by
          simp only [List.length_cons] at hq ⊢
          omega
        rw [hk]
        simpa [Nat.mod_eq_of_lt w.h_lt] using w

/-- check_and_truncate on a well-formed queue drops exactly the oldest
elements beyond the limit and leaves a well-formed queue behind. -/
theorem wf_trunc {C h : Nat} {l : List α} {q : Fifo α}
    (w : Wf C h l q) (limit : Int) :
    Wf C ((h + (l.length - limit.toNat)) % C) (l.drop (l.length - limit.toNat))
      (check_and_truncate q limit) := by
  rw [check_and_truncate, w.occ_eq]
  exact wf_truncLoop l h q (l.length : Int) limit w rfl

/-- The eviction loop never increases the occupancy count. -/
theorem truncLoop_queueLength_le (q : Fifo α) (qlen limit : Int) :
    queueLength (truncLoop q qlen limit) ≤ queueLength q := by
  have H : ∀ (n : Nat) (q : Fifo α) (qlen : Int), queueLength q = n →
      queueLength (truncLoop q qlen limit) ≤ queueLength q := by
    intro n
    induction n using Nat.strong_induction_on with
    | _ n ihn =>
        intro q qlen hn
        rw [truncLoop]
        by_cases hcond : (q.slots.getD q.head none).isSome = true ∧ limit < qlen
        · rw [dif_pos hcond]
          obtain ⟨b, hb⟩ := Option.isSome_iff_exists.mp hcond.1
          have hdrop := countP_set_none q.slots q.head b hb
          have hlt : queueLength (evictHead q) < n := by
            simp only [evictHead, queueLength] at hn ⊢
            omega
          have := ihn _ hlt (evictHead q) (qlen - 1) rfl
          simp only [evictHead, queueLength] at hdrop hn this ⊢
          omega
        · rw [dif_neg hcond]
  exact H (queueLength q) q qlen rfl

/-- The eviction loop stops exactly when the counter is within the limit
or the head slot is NULL; as long as its counter agrees with the true
occupancy, the final occupancy is within the limit or the final head slot
is NULL. -/
theorem truncLoop_post (q : Fifo α) (qlen limit : Int)
    (hq : qlen = (queueLength q : Int)) :
    (queueLength (truncLoop q qlen limit) : Int) ≤ limit ∨
      (truncLoop q qlen limit).slots.getD (truncLoop q qlen limit).head none = none := by
  have H : ∀ (n : Nat) (q : Fifo α) (qlen : Int), queueLength q = n →
      qlen = (queueLength q : Int) →
      (queueLength (truncLoop q qlen limit) : Int) ≤ limit ∨
        (truncLoop q qlen limit).slots.getD (truncLoop q qlen limit).head none = none := by
    intro n
    induction n using Nat.strong_induction_on with
    | _ n ihn =>
        intro q qlen hn hq
        rw [truncLoop]
        by_cases hcond : (q.slots.getD q.head none).isSome = true ∧ limit < qlen
        · rw [dif_pos hcond]
          obtain ⟨b, hb⟩ := Option.isSome_iff_exists.mp hcond.1
          have hdrop := countP_set_none q.slots q.head b hb
          have hlt : queueLength (evictHead q) < n := by
            simp only [evictHead, queueLength] at hn ⊢
            omega
          refine ihn _ hlt (evictHead q) (qlen - 1) rfl ?_
          simp only [evictHead, queueLength] at hdrop ⊢
          simp only [queueLength] at hq
          omega
        · rw [dif_neg hcond]
          rcases Decidable.not_and_iff_or_not.mp hcond with hns | hnl
          · right
            simpa using hns
          · left
            omega
  exact H (queueLength q) q qlen rfl hq

/-- A run of enqueue calls all reporting 0 appends the arrivals in order
to the abstract contents. -/
theorem wf_enqList {C h : Nat} :
    ∀ (es l : List α) (q : Fifo α), Wf C h l q →
    (∀ s ∈ (enqList q es).2, s = 0) →
    Wf C h (l ++ es) (enqList q es).1 := by
  intro es
  induction es with
  | nil =>
      intro l q w hok
      simpa using w
  | cons e rest ih =>
      intro l q w hok
      have hs0 : (enqueue q e).2 = 0 := by
        apply hok
        simp [enqList]
      have hl1 : l.length + 1 < C := by
        rcases Nat.lt_or_ge (l.length + 1) C with hlt | hge
        · exact hlt
        · have heq : l.length + 1 = C := by
            have := w.len_lt
            omega
          have := (wf_enqueue_full w heq e).1
          rw [this] at hs0
          omega
      obtain ⟨hs, w2⟩ := wf_enqueue_ok w hl1 e
      have hok2 : ∀ s ∈ (enqList (enqueue q e).1 rest).2, s = 0 := by
        intro s hs2
        apply hok
        simp [enqList, hs2]
      have := ih (l ++ [e]) (enqueue q e).1 w2 hok2
      simpa [enqList, List.append_assoc] using this

/-- Dequeueing as many times as there are elements returns them all in
FIFO order. -/
theorem wf_deqList {C : Nat} :
    ∀ (l : List α) (h : Nat) (q : Fifo α), Wf C h l q →
    (deqList q l.length).2 = l.map some := by
  intro l
  induction l with
  | nil =>
      intro h q w
      rfl
  | cons a rest ih =>
      intro h q w
      obtain ⟨hd, w2⟩ := wf_dequeue_cons w
      rw [hd] at w2
      simp [deqList, hd, ih ((h + 1) % C) (evictHead q) w2]

/-- The statuses of a maximal run of enqueue calls that exactly exhausts
the array: zeros until the array wraps onto the head, then a 1. -/
theorem enqList_statuses {C h : Nat} :
    ∀ (es l : List α) (q : Fifo α), Wf C h l q → l.length + es.length = C →
    (enqList q es).2 = List.replicate (C - 1 - l.length) 0 ++ [1] := by
  intro es
  induction es with
  | nil =>
      intro l q w hlen
      have := w.len_lt
      simp at hlen
      omega
  | cons e rest ih =>
      intro l q w hlen
      simp only [List.length_cons] at hlen
      rcases Nat.lt_or_ge (l.length + 1) C with hlt | hge
      · obtain ⟨hs, w2⟩ := wf_enqueue_ok w hlt e
        have hrec := ih (l ++ [e]) (enqueue q e).1 w2 (by simp; omega)
        simp only [enqList, hs, hrec]
        have hrep : C - 1 - l.length = (C - 1 - (l ++ [e]).length) + 1 := by
          simp
          omega
        rw [hrep, List.replicate_succ]
        simp
      · have heq : l.length + 1 = C := by
          have := w.len_lt
          omega
        have hrest : rest = [] := by
          cases rest with
          | nil => rfl
          | cons x xs => simp at hlen; omega
        subst hrest
        have hs := (wf_enqueue_full w heq e).1
        simp only [enqList, hs]
        have : C - 1 - l.length = 0 := by omega
        simp [this]

/-- Along any run of operations in which every enqueue reported 0, the
state stays well formed. -/
theorem wf_runOps {C : Nat} :
    ∀ (ops : List (Op α)) (h : Nat) (l : List α) (q : Fifo α), Wf C h l q →
    (∀ s ∈ (runOps q ops).2, s = 0) →
    ∃ h2 l2, Wf C h2 l2 (runOps q ops).1 := by
  intro ops
  induction ops with
  | nil =>
      intro h l q w hok
      exact ⟨h, l, w⟩
  | cons op rest ih =>
      intro h l q w hok
      have hok2 : ∀ s ∈ (runOps (step q op).1 rest).2, s = 0 := by
        intro s hs2
        apply hok
        simp [runOps, hs2]
      cases op with
      | enq a =>
          have hs0 : (enqueue q a).2 = 0 := by
            apply hok
            simp [runOps, step]
          have hl1 : l.length + 1 < C := by
            rcases Nat.lt_or_ge (l.length + 1) C with hlt | hge
            · exact hlt
            · have heq : l.length + 1 = C := by
                have := w.len_lt
                omega
              have := (wf_enqueue_full w heq a).1
              rw [this] at hs0
              omega
          obtain ⟨hs, w2⟩ := wf_enqueue_ok w hl1 a
          simpa [runOps, step] using ih h (l ++ [a]) (enqueue q a).1 w2 hok2
      | deq =>
          cases l with
          | nil =>
              have hd := wf_dequeue_nil w
              refine ?_
              have := ih h [] ((dequeue q).1) (by rw [hd]; exact w) hok2
              simpa [runOps, step] using this
          | cons a rest2 =>
              obtain ⟨hd, w2⟩ := wf_dequeue_cons w
              have := ih ((h + 1) % C) rest2 ((dequeue q).1) w2 hok2
              simpa [runOps, step] using this
      | trunc limit =>
          have w2 := wf_trunc w limit
          have := ih ((h + (l.length - limit.toNat)) % C)
            (l.drop (l.length - limit.toNat)) (check_and_truncate q limit) w2 hok2
          simpa [runOps, step] using this

/-- Claim C1: for every capacity C of at least 2, C consecutive enqueue
calls on a freshly constructed empty queue have each of the first C - 1
calls report 0 (success) and the C-th call report 1 (Overflow). -/
theorem claim_c1 (α : Type) (C : Nat) (hC : 2 ≤ C) (es : List α)
    (hlen : es.length = C) :
    (enqList (emptyFifo α C) es).2 = List.replicate (C - 1) 0 ++ [1] := by
  have h := enqList_statuses es [] (emptyFifo α C) (wf_empty α hC) (by simpa using hlen)
  simpa using h

/-- Witness for claim C1 at capacity 20: the first 19 enqueues succeed
and the 20th reports Overflow. -/
theorem claim_c1_witness :
    2 ≤ 20 ∧ (List.replicate 20 (7 : Nat)).length = 20 ∧
      (enqList (emptyFifo Nat 20) (List.replicate 20 (7 : Nat))).2 =
        List.replicate 19 0 ++ [1] :=
  ⟨by decide, by decide, claim_c1 Nat 20 (by decide) (List.replicate 20 7) (by decide)⟩

/-- Claim C2: enqueueing e1, ..., en on an initially empty queue with no
call reporting Overflow, followed by n dequeue calls, returns e1, ..., en
in exactly that order. -/
theorem claim_c2 (α : Type) (C : Nat) (hC : 2 ≤ C) (es : List α)
    (hok : ∀ s ∈ (enqList (emptyFifo α C) es).2, s = 0) :
    (deqList (enqList (emptyFifo α C) es).1 es.length).2 = es.map some := by
  have w := wf_enqList es [] (emptyFifo α C) (wf_empty α hC) hok
  exact wf_deqList es 0 (enqList (emptyFifo α C) es).1 (by simpa using w)

/-- Witness for claim C2: capacity 3, enqueue 1 then 2 (both succeed),
then two dequeues return 1 then 2. -/
theorem claim_c2_witness :
    (deqList (enqList (emptyFifo Nat 3) [1, 2]).1 2).2 = [some 1, some 2] := by
  have h := claim_c2 Nat 3 (by decide) [1, 2] (by decide)
  simpa using h

/-- Claim C6: when the head slot is empty, dequeue returns no element and
leaves the state unchanged, and so do arbitrarily many repeated calls. -/
theorem claim_c6 (q : Fifo α) (hget : q.slots.getD q.head none = none) (n : Nat) :
    dequeue q = (q, none) ∧ deqList q n = (q, List.replicate n none) := by
  have hd : dequeue q = (q, none) := by
    simp only [dequeue, hget]
  refine ⟨hd, ?_⟩
  induction n with
  | zero => rfl
  | succ m ihm =>
      simp only [deqList, hd, ihm, List.replicate_succ]

/-- Witness for claim C6: two dequeues on the empty queue of capacity 3
both return no element and change nothing. -/
theorem claim_c6_witness :
    dequeue (emptyFifo Nat 3) = (emptyFifo Nat 3, none) ∧
      deqList (emptyFifo Nat 3) 2 = (emptyFifo Nat 3, List.replicate 2 none) :=
  claim_c6 (emptyFifo Nat 3) (by decide) 2

/-- Claim C7: the round-trip trace of fifo_example.c on a queue of
capacity 3: dequeue finds nothing; "ab" and "cd" go in (len 1 then 2);
dequeue returns "ab" (len 1); "ef" goes in, with the tail index wrapping
to 0; dequeues return "cd" then "ef", the head index wrapping to 0; a
final dequeue finds nothing. -/
theorem claim_c7 :
    (dequeue (emptyFifo String 3)).2 = none ∧
    (dequeue (emptyFifo String 3)).1 = emptyFifo String 3 ∧
    (enqueue (emptyFifo String 3) "ab").2 = 0 ∧
    queueLength (enqueue (emptyFifo String 3) "ab").1 = 1 ∧
    (enqueue (enqueue (emptyFifo String 3) "ab").1 "cd").2 = 0 ∧
    queueLength (enqueue (enqueue (emptyFifo String 3) "ab").1 "cd").1 = 2 ∧
    (dequeue (enqueue (enqueue (emptyFifo String 3) "ab").1 "cd").1).2 = some "ab" ∧
    queueLength (dequeue (enqueue (enqueue (emptyFifo String 3) "ab").1 "cd").1).1 = 1 ∧
    (enqueue (dequeue (enqueue (enqueue (emptyFifo String 3) "ab").1 "cd").1).1 "ef").2 = 0 ∧
    (enqueue (dequeue (enqueue (enqueue (emptyFifo String 3) "ab").1 "cd").1).1 "ef").1.tail = 0 ∧
    (dequeue (enqueue (dequeue (enqueue (enqueue (emptyFifo String 3) "ab").1 "cd").1).1 "ef").1).2 = some "cd" ∧
    (dequeue (dequeue (enqueue (dequeue (enqueue (enqueue (emptyFifo String 3) "ab").1 "cd").1).1 "ef").1).1).2 = some "ef" ∧
    (dequeue (dequeue (enqueue (dequeue (enqueue (enqueue (emptyFifo String 3) "ab").1 "cd").1).1 "ef").1).1).1.head = 0 ∧
    (dequeue (dequeue (dequeue (enqueue (dequeue (enqueue (enqueue (emptyFifo String 3) "ab").1 "cd").1).1 "ef").1).1).1).2 = none := by
  decide

/-- Counterexample to claim C3 as stated: on a queue of capacity 2, two
consecutive enqueue calls (a sequence of enqueue/dequeue/enforce calls
from the empty queue) leave both slots occupied, so the occupancy exceeds
capacity minus one, and head == tail without the queue being empty. -/
theorem claim_c3_counterexample :
    queueLength (runOps (emptyFifo Nat 2) [Op.enq 1, Op.enq 2]).1 = 2 ∧
      ¬(queueLength (runOps (emptyFifo Nat 2) [Op.enq 1, Op.enq 2]).1 ≤ 2 - 1) ∧
      (runOps (emptyFifo Nat 2) [Op.enq 1, Op.enq 2]).1.head =
        (runOps (emptyFifo Nat 2) [Op.enq 1, Op.enq 2]).1.tail := by
  decide

/-- Claim C3 (amended): in every state reachable from a freshly
constructed empty queue of capacity C >= 2 by enqueue, dequeue and
enforce calls in which no enqueue reported Overflow, at most C - 1 slots
are occupied, and head == tail holds exactly when the queue is empty. -/
theorem claim_c3 (α : Type) (C : Nat) (hC : 2 ≤ C) (ops : List (Op α))
    (hok : ∀ s ∈ (runOps (emptyFifo α C) ops).2, s = 0) :
    queueLength (runOps (emptyFifo α C) ops).1 ≤ C - 1 ∧
      ((runOps (emptyFifo α C) ops).1.head = (runOps (emptyFifo α C) ops).1.tail ↔
        queueLength (runOps (emptyFifo α C) ops).1 = 0) := by
  obtain ⟨h2, l2, w⟩ := wf_runOps ops 0 [] (emptyFifo α C) (wf_empty α hC) hok
  constructor
  · rw [w.occ_eq]
    have := w.len_lt
    omega
  · rw [w.occ_eq, w.head_eq, w.tail_eq]
    constructor
    · intro he
      exact (mod_shift_eq_self w.h_lt w.len_lt).mp he.symm
    · intro he
      rw [he]
      simp [Nat.mod_eq_of_lt w.h_lt]

/-- Witness for claim C3 (amended): a run of capacity 3 with a wrap-around
and a truncation, all enqueues succeeding. -/
theorem claim_c3_witness :
    queueLength (runOps (emptyFifo Nat 3) [Op.enq 7, Op.deq, Op.enq 8, Op.enq 9, Op.deq, Op.deq]).1 ≤ 3 - 1 ∧
      ((runOps (emptyFifo Nat 3) [Op.enq 7, Op.deq, Op.enq 8, Op.enq 9, Op.deq, Op.deq]).1.head =
          (runOps (emptyFifo Nat 3) [Op.enq 7, Op.deq, Op.enq 8, Op.enq 9, Op.deq, Op.deq]).1.tail ↔
        queueLength (runOps (emptyFifo Nat 3) [Op.enq 7, Op.deq, Op.enq 8, Op.enq 9, Op.deq, Op.deq]).1 = 0) :=
  claim_c3 Nat 3 (by decide) [Op.enq 7, Op.deq, Op.enq 8, Op.enq 9, Op.deq, Op.deq] (by decide)

/-- Claim C4: on any well-formed queue and any limit at most capacity
minus one, after enforce the occupancy is at most its old value (hence at
most the maximum of the limit and the old value), and the evicted
elements are exactly the oldest ones present: the remaining contents are
the old contents with the first elements dropped. -/
theorem claim_c4 {C h : Nat} (l : List α) (q : Fifo α) (limit : Int)
    (w : Wf C h l q) (hlim : limit ≤ (C : Int) - 1) :
    queueLength (check_and_truncate q limit) ≤ queueLength q ∧
      (queueLength (check_and_truncate q limit) : Int) ≤
        max limit (queueLength q : Int) ∧
      Wf C ((h + (l.length - limit.toNat)) % C) (l.drop (l.length - limit.toNat))
        (check_and_truncate q limit) := by
  have w2 := wf_trunc w limit
  have hle : queueLength (check_and_truncate q limit) ≤ queueLength q := by
    rw [check_and_truncate]
    exact truncLoop_queueLength_le q (queueLength q) limit
  refine ⟨hle, ?_, w2⟩
  calc (queueLength (check_and_truncate q limit) : Int) ≤ (queueLength q : Int) := by
        exact_mod_cast hle
    _ ≤ max limit (queueLength q : Int) := le_max_right _ _

/-- Witness for claim C4: capacity 3 holding elements 1 and 2, limit 1:
the oldest element 1 is evicted and element 2 remains. -/
theorem claim_c4_witness :
    queueLength (check_and_truncate (⟨[some 1, some 2, none], 0, 2⟩ : Fifo Nat) 1) ≤
        queueLength (⟨[some 1, some 2, none], 0, 2⟩ : Fifo Nat) ∧
      (queueLength (check_and_truncate (⟨[some 1, some 2, none], 0, 2⟩ : Fifo Nat) 1) : Int) ≤
        max 1 (queueLength (⟨[some 1, some 2, none], 0, 2⟩ : Fifo Nat) : Int) ∧
      Wf 3 ((0 + (([(1 : Nat), 2].length) - (1 : Int).toNat)) % 3)
        ([(1 : Nat), 2].drop (([(1 : Nat), 2].length) - (1 : Int).toNat))
        (check_and_truncate (⟨[some 1, some 2, none], 0, 2⟩ : Fifo Nat) 1) :=
  @claim_c4 Nat 3 0 [1, 2] (⟨[some 1, some 2, none], 0, 2⟩ : Fifo Nat) 1
    ⟨by decide, by decide, by decide, by decide, by decide, by decide, by decide, by decide⟩
    (by decide)

/-- Counterexample to claim C5 as stated: from the reachable full state
of capacity 2 (both slots occupied, head == tail == 0), one eviction by
enforce with limit 1 advances head to 1 even though head == tail, whereas
the claim says head would be left unchanged as in dequeue; the resulting
state differs from the one dequeue produces. -/
theorem claim_c5_counterexample :
    (⟨[some 1, some 2], 0, 0⟩ : Fifo Nat).head = (⟨[some 1, some 2], 0, 0⟩ : Fifo Nat).tail ∧
      (check_and_truncate (⟨[some 1, some 2], 0, 0⟩ : Fifo Nat) 1).head = 1 ∧
      (dequeue (⟨[some 1, some 2], 0, 0⟩ : Fifo Nat)).1.head = 0 ∧
      check_and_truncate (⟨[some 1, some 2], 0, 0⟩ : Fifo Nat) 1 ≠
        (dequeue (⟨[some 1, some 2], 0, 0⟩ : Fifo Nat)).1 := by
  have h1 : check_and_truncate (⟨[some 1, some 2], 0, 0⟩ : Fifo Nat) 1 =
      ⟨[none, some 2], 1, 0⟩ := by
    simp [check_and_truncate, queueLength, truncLoop, evictHead]
  rw [h1]
  decide

/-- Claim C5 (amended): every individual eviction performed by enforce
clears the slot at head and advances head by one modulo capacity
unconditionally; whenever head is not equal to tail this is exactly the
state change dequeue performs. -/
theorem claim_c5 (q : Fifo α) (qlen limit : Int)
    (hocc : (q.slots.getD q.head none).isSome = true) (hlt : limit < qlen)
    (hne : q.head ≠ q.tail) :
    truncLoop q qlen limit = truncLoop ((dequeue q).1) (qlen - 1) limit ∧
      (dequeue q).1 =
        ⟨q.slots.set q.head none, (q.head + 1) % q.slots.length, q.tail⟩ := by
  obtain ⟨b, hb⟩ := Option.isSome_iff_exists.mp hocc
  have hd : (dequeue q).1 = evictHead q := by
    simp only [dequeue, evictHead, hb]
    rw [if_pos hne]
  constructor
  · conv_lhs => rw [truncLoop]
    rw [dif_pos ⟨hocc, hlt⟩, hd]
  · rw [hd]
    rfl

/-- Witness for claim C5 (amended): one eviction from a capacity 3 queue
holding two elements with head 0 and tail 2 equals a dequeue step. -/
theorem claim_c5_witness :
    truncLoop (⟨[some 1, some 2, none], 0, 2⟩ : Fifo Nat) 2 0 =
        truncLoop ((dequeue (⟨[some 1, some 2, none], 0, 2⟩ : Fifo Nat)).1) (2 - 1) 0 ∧
      (dequeue (⟨[some 1, some 2, none], 0, 2⟩ : Fifo Nat)).1 =
        (⟨[none, some 2, none], 1, 2⟩ : Fifo Nat) :=
  claim_c5 (⟨[some 1, some 2, none], 0, 2⟩ : Fifo Nat) 2 0 (by decide) (by decide) (by decide)

/-- Claim C8: enforce (a total function here, embedding the terminating C
loop) stops exactly when the occupancy is within the limit or the head
slot is empty: the final state satisfies that disjunction, and when it
holds initially the call changes nothing.  It returns no status at all,
so it signals neither Overflow nor Underflow. -/
theorem claim_c8 (q : Fifo α) (limit : Int) :
    ((queueLength (check_and_truncate q limit) : Int) ≤ limit ∨
      (check_and_truncate q limit).slots.getD (check_and_truncate q limit).head none = none) ∧
    (((queueLength q : Int) ≤ limit ∨ q.slots.getD q.head none = none) →
      check_and_truncate q limit = q) := by
  constructor
  · rw [check_and_truncate]
    exact truncLoop_post q (queueLength q) limit rfl
  · intro hpre
    rcases hpre with hocc | hnone
    · rw [check_and_truncate, truncLoop, dif_neg (by intro hc; exact absurd hc.2 (by omega))]
    · rw [check_and_truncate, truncLoop, dif_neg (by rw [hnone]; simp)]

/-- Witness for claim C8: a capacity 2 queue holding one element, limit 5:
the final occupancy is within the limit, and the call is a no-op. -/
theorem claim_c8_witness :
    (((queueLength (check_and_truncate (⟨[some 4, none], 0, 1⟩ : Fifo Nat) 5) : Int) ≤ 5 ∨
        (check_and_truncate (⟨[some 4, none], 0, 1⟩ : Fifo Nat) 5).slots.getD
          (check_and_truncate (⟨[some 4, none], 0, 1⟩ : Fifo Nat) 5).head none = none)) ∧
      check_and_truncate (⟨[some 4, none], 0, 1⟩ : Fifo Nat) 5 = (⟨[some 4, none], 0, 1⟩ : Fifo Nat) :=
  ⟨(claim_c8 (⟨[some 4, none], 0, 1⟩ : Fifo Nat) 5).1,
    (claim_c8 (⟨[some 4, none], 0, 1⟩ : Fifo Nat) 5).2 (by decide)⟩

/-- Claim C9: for a limit outside the range of non-negative integers at
most capacity minus one, enforce does not evict below what is present: in
particular whenever the occupancy is already at most the limit the call
leaves the queue completely unchanged. -/
theorem claim_c9 (q : Fifo α) (limit : Int)
    (hrange : limit < 0 ∨ (q.slots.length : Int) - 1 < limit)
    (hocc : (queueLength q : Int) ≤ limit) :
    check_and_truncate q limit = q := by
  rw [check_and_truncate, truncLoop, dif_neg (by intro hc; exact absurd hc.2 (by omega))]

/-- Witness for claim C9: limit 5 on a capacity 3 queue holding one
element leaves the queue unchanged. -/
theorem claim_c9_witness :
    check_and_truncate (⟨[some 1, none, none], 0, 1⟩ : Fifo Nat) 5 =
      (⟨[some 1, none, none], 0, 1⟩ : Fifo Nat) :=
  claim_c9 (⟨[some 1, none, none], 0, 1⟩ : Fifo Nat) 5 (by decide) (by decide)

/-- Claim C10: enqueue on the state left behind by an overflowing enqueue
(every slot occupied, head == tail) overwrites the slot at tail, which
holds the element dequeue would return next (the oldest), advances tail
modulo capacity, and reports 1 (Overflow) again, with no other signal. -/
theorem claim_c10 (q : Fifo α) (a : α)
    (hfull : ∀ i, i < q.slots.length → (q.slots.getD i none).isSome = true)
    (hht : q.head = q.tail) (htl : q.tail < q.slots.length) :
    enqueue q a =
      (⟨q.slots.set q.tail (some a), q.head, (q.tail + 1) % q.slots.length⟩, 1) ∧
      (dequeue q).2 = q.slots.getD q.tail none := by
  have hCpos : 0 < q.slots.length := by omega
  have ht2 : (q.tail + 1) % q.slots.length < q.slots.length := Nat.mod_lt _ hCpos
  constructor
  · have hcond : ((q.slots.set q.tail (some a)).getD
        ((q.tail + 1) % q.slots.length) none).isSome = true := by
      by_cases he : q.tail = (q.tail + 1) % q.slots.length
      · rw [← he, getD_set_self _ htl]
        rfl
      · rw [getD_set_ne _ he]
        exact hfull _ ht2
    simp only [enqueue]
    rw [if_pos hcond]
  · have hsome : (q.slots.getD q.head none).isSome = true := by
      rw [hht]
      exact hfull q.tail htl
    obtain ⟨b, hb⟩ := Option.isSome_iff_exists.mp hsome
    have hb2 : q.slots.getD q.tail none = some b := by
      rw [← hht]
      exact hb
    simp only [dequeue, hb, hb2]

/-- Witness for claim C10: the full capacity 2 state with head == tail ==
0: enqueueing 9 overwrites the oldest element 5 and reports Overflow. -/
theorem claim_c10_witness :
    enqueue (⟨[some 5, some 6], 0, 0⟩ : Fifo Nat) 9 =
        ((⟨[some 9, some 6], 0, 1⟩ : Fifo Nat), 1) ∧
      (dequeue (⟨[some 5, some 6], 0, 0⟩ : Fifo Nat)).2 = some 5 :=
  claim_c10 (⟨[some 5, some 6], 0, 0⟩ : Fifo Nat) 9 (by decide) (by decide) (by decide)

end Queues
